import Mathlib

/-!
Verification development for dsa-2.0.js (KJUR.crypto.DSA), the DSA signing
and verification core of jsrsasign.

Shallow embedding conventions:
* jsbn BigInteger values occurring here are nonnegative, so they are
  embedded as Nat.  (parseASN1Signature builds them with
  new BigInteger(hex, 16), which never yields a negative value, and all
  arithmetic results are mod-reduced.)
* Hexadecimal strings at the interfaces are embedded at digit/byte
  granularity: a message digest is a list of hex digits (each < 16 for a
  genuine digest), an ASN.1 blob is a list of bytes.
* The external collaborators that are part of the jsrsasign repository but
  not of this source file (jsbn arithmetic, KJUR.asn1 encoder, ASN1HEX
  decoder, KJUR.crypto.Util RNG) are modelled from the spec where needed;
  each such definition carries a doc comment saying so.
-/

/-- Key object of KJUR.crypto.DSA: fields p, q, g, y, x set by
setPrivate/setPublic, plus the constant type field initialised to "DSA". -/
structure DSAKey where
  p : Nat
  q : Nat
  g : Nat
  y : Nat
  x : Nat
  type : String
deriving DecidableEq

/-- Big-endian value of a list of hexadecimal digits, as computed by
new BigInteger(hexString, 16); the empty string yields 0. -/
def hexToNat (ds : List Nat) : Nat :=
  ds.foldl (fun a d => 16 * a + d) 0

/-- Big-endian value of a list of bytes. -/
def bytesToNat (bs : List Nat) : Nat :=
  bs.foldl (fun a b => 256 * a + b) 0

/-- Fuel-driven big-endian byte expansion (structural recursion so that
concrete instances reduce in the kernel). -/
def natBytesAux : Nat → Nat → List Nat
  | 0, _ => []
  | _ + 1, 0 => []
  | fuel + 1, n => natBytesAux fuel (n / 256) ++ [n % 256]

/-- Minimal big-endian byte representation of a natural number
([] for 0). -/
def natBytes (n : Nat) : List Nat :=
  natBytesAux n n

/-- Modelled from the spec: jsbn bitLength() of a nonnegative BigInteger
(the arbitrary-precision integer type is an external collaborator).
bitLength 0 = 0 and bitLength n = floor(log2 n) + 1 for n > 0, here as the
number of exponents i with 2^i <= n. -/
def bitLength (n : Nat) : Nat :=
  (List.range (n + 1)).countP (fun i => 2 ^ i ≤ n)

/-- z as derived by signWithMessageHash (line 121-122):
hZ = sHashHex.substr(0, q.bitLength() / 4); z = new BigInteger(hZ, 16).
JavaScript substr truncates the fractional count toward zero, hence the
Nat division. -/
def zSign (q : Nat) (digest : List Nat) : Nat :=
  hexToNat (digest.take (bitLength q / 4))

/-- z as derived by verifyWithMessageHash (line 160-161): textually the
same computation as in the signer. -/
def zVerify (q : Nat) (digest : List Nat) : Nat :=
  hexToNat (digest.take (bitLength q / 4))

/-- Modelled from the spec: jsbn modInverse (external arbitrary-precision
arithmetic).  Returns the multiplicative inverse of a modulo m when it
exists; when gcd(a, m) is not 1 no inverse exists and the external
operation fails (none). -/
def modInverse (a m : Nat) : Option Nat :=
  (List.range m).find? (fun w => a * w % m == 1)

/-- Modelled from the spec: content octets of a DER INTEGER for a
nonnegative value, minimal big-endian with a leading zero octet whenever
the high bit would otherwise be read as a sign bit (and a single zero
octet for the value 0). -/
def intContent (n : Nat) : List Nat :=
  match natBytes n with
  | [] => [0]
  | b :: bs => if 128 ≤ b then 0 :: b :: bs else b :: bs

/-- Modelled from the spec: DER length octets (short form below 128,
long form above). -/
def lenBytes (n : Nat) : List Nat :=
  if n < 128 then [n]
  else (128 + (natBytes n).length) :: natBytes n

/-- Modelled from the spec: a full DER INTEGER TLV (tag 0x02). -/
def derInt (n : Nat) : List Nat :=
  2 :: lenBytes (intContent n).length ++ intContent n

/-- Modelled from the spec: KJUR.asn1.ASN1Util.jsonToASN1HEX applied to
the seq-of-two-ints template of line 131-133: a DER SEQUENCE (tag 0x30)
holding the INTEGERs r then s. -/
def encodeSig (r s : Nat) : List Nat :=
  48 :: lenBytes (derInt r ++ derInt s).length ++ (derInt r ++ derInt s)

/-- Modelled from the spec: reading the length octets at the front of a
byte stream; yields the length and the bytes after the length field, or
none when the field is truncated or indefinite. -/
def parseLen : List Nat → Option (Nat × List Nat)
  | [] => none
  | b :: rest =>
    if b < 128 then some (b, rest)
    else if b = 128 then none
    else
      if rest.length < b - 128 then none
      else some (bytesToNat (rest.take (b - 128)), rest.drop (b - 128))

/-- Modelled from the spec: reading one INTEGER TLV at the front of a
byte stream; yields its nonnegative value and the remaining bytes, or
none on wrong tag or truncation. -/
def parseIntTLV (bs : List Nat) : Option (Nat × List Nat) :=
  match bs with
  | [] => none
  | t :: rest =>
    if t = 2 then
      match parseLen rest with
      | none => none
      | some (len, body) =>
        if len ≤ body.length then some (bytesToNat (body.take len), body.drop len)
        else none
    else none

/-- parseASN1Signature (line 197-205).  The inner ASN1HEX.getVbyList
decoder is repository code outside this source file, so it is modelled
from the spec: the byte stream must be one SEQUENCE (tag 0x30) whose
declared length covers exactly the rest of the stream (no truncation, no
trailing data) and whose body is exactly two INTEGER TLVs; anything else
is the MalformedSignature failure, which the source catch-all rethrows as
the string "malformed ASN.1 DSA signature" (none here). -/
def parseASN1Signature (bs : List Nat) : Option (Nat × Nat) :=
  match bs with
  | [] => none
  | t :: rest =>
    if t = 48 then
      match parseLen rest with
      | none => none
      | some (len, body) =>
        if body.length = len then
          match parseIntTLV body with
          | none => none
          | some (r, body2) =>
            match parseIntTLV body2 with
            | none => none
            | some (s, body3) => if body3 = [] then some (r, s) else none
        else none
    else none

/-- Signature pair (r, s) computed by signWithMessageHash (lines 107-129)
for a given ephemeral secret k: r = (g^k mod p) mod q and
s = (k^-1 * (z + x*r)) mod q.  none when the external modular inverse of
k fails. -/
def signRS (key : DSAKey) (k : Nat) (digest : List Nat) : Option (Nat × Nat) :=
  let z := zSign key.q digest
  let r := key.g ^ k % key.p % key.q
  match modInverse k key.q with
  | none => none
  | some kinv => some (r, kinv * (z + key.x * r) % key.q)

/-- signWithMessageHash (lines 107-135) with the ephemeral secret k made
an explicit argument (it is drawn from the external RNG, see
signWithMessageHashRand): computes (r, s) and returns its ASN.1
encoding.  There is no retry of any kind on r = 0 or s = 0. -/
def signWithMessageHash (key : DSAKey) (k : Nat) (digest : List Nat) :
    Option (List Nat) :=
  match signRS key k digest with
  | none => none
  | some (r, s) => some (encodeSig r s)

/-- Outcome of verifyWithMessageHash: the MalformedSignature throw from
parseASN1Signature, the invalid DSA signature throw of the range check,
failure of the external modular inverse, or a boolean verdict. -/
inductive VResult where
  | errMalformed : VResult
  | errRange : VResult
  | errArith : VResult
  | res : Bool → VResult
deriving DecidableEq

/-- verifyWithMessageHash (lines 147-186).  The range check transcribes
BigInteger.ZERO.compareTo(r) > 0 || r.compareTo(q) > 0 (and likewise for
s): with nonnegative parsed values the first disjunct never fires, so the
check throws exactly when q < r or q < s. -/
def verifyWithMessageHash (key : DSAKey) (digest : List Nat) (sig : List Nat) :
    VResult :=
  match parseASN1Signature sig with
  | none => .errMalformed
  | some (r, s) =>
    let z := zVerify key.q digest
    if key.q < r then .errRange
    else if key.q < s then .errRange
    else
      match modInverse s key.q with
      | none => .errArith
      | some w =>
        let u1 := z * w % key.q
        let u2 := r * w % key.q
        let v := (key.g ^ u1 % key.p) * (key.y ^ u2 % key.p) % key.p % key.q
        .res (v == r)

theorem bytesToNat_append_last (xs : List Nat) (b : Nat) :
    bytesToNat (xs ++ [b]) = 256 * bytesToNat xs + b := by
  simp [bytesToNat, List.foldl_append]

theorem bytesToNat_cons_zero (bs : List Nat) :
    bytesToNat (0 :: bs) = bytesToNat bs := by
  simp [bytesToNat]

theorem natBytesAux_eq (fuel : Nat) : ∀ n : Nat, n ≤ fuel →
    bytesToNat (natBytesAux fuel n) = n := by
  induction fuel with
  | zero =>
    intro n hn
    interval_cases n
    simp [natBytesAux, bytesToNat]
  | succ fuel ih =>
    intro n hn
    match n with
    | 0 => simp [natBytesAux, bytesToNat]
    | m + 1 =>
      have hdiv : (m + 1) / 256 ≤ fuel := by
        have := Nat.div_lt_self (Nat.succ_pos m) (by norm_num : 1 < 256)
        omega
      calc bytesToNat (natBytesAux (fuel + 1) (m + 1))
          = bytesToNat (natBytesAux fuel ((m + 1) / 256) ++ [(m + 1) % 256]) := rfl
        _ = 256 * bytesToNat (natBytesAux fuel ((m + 1) / 256)) + (m + 1) % 256 :=
            bytesToNat_append_last _ _
        _ = 256 * ((m + 1) / 256) + (m + 1) % 256 := by rw [ih _ hdiv]
        _ = m + 1 := Nat.div_add_mod _ _

theorem bytesToNat_natBytes (n : Nat) : bytesToNat (natBytes n) = n :=
  natBytesAux_eq n n (Nat.le_refl n)

theorem natBytes_ne_nil {n : Nat} (h : n ≠ 0) : natBytes n ≠ [] := by
  match n with
  | 0 => exact absurd rfl h
  | m + 1 =>
    show natBytesAux (m + 1) (m + 1) ≠ []
    simp [natBytesAux]

theorem bytesToNat_intContent (n : Nat) : bytesToNat (intContent n) = n := by
  unfold intContent
  rcases h : natBytes n with _ | ⟨b, bs⟩
  · have := bytesToNat_natBytes n
    rw [h] at this
    simpa [bytesToNat] using this
  · have := bytesToNat_natBytes n
    rw [h] at this
    by_cases hb : 128 ≤ b
    · simpa [hb, bytesToNat_cons_zero] using this
    · simpa [hb] using this

theorem parseLen_lenBytes (n : Nat) (rest : List Nat) :
    parseLen (lenBytes n ++ rest) = some (n, rest) := by
  by_cases h : n < 128
  · simp [lenBytes, h, parseLen]
  · have hne : natBytes n ≠ [] := natBytes_ne_nil (by omega)
    have hk : 1 ≤ (natBytes n).length := by
      cases hmb : natBytes n with
      | nil => exact absurd hmb hne
      | cons a l => simp
    simp only [lenBytes, h, if_false, List.cons_append]
    have h1 : ¬ (128 + (natBytes n).length < 128) := by omega
    have h2 : ¬ (128 + (natBytes n).length = 128) := by omega
    have h3 : 128 + (natBytes n).length - 128 = (natBytes n).length := by omega
    simp only [parseLen, h1, if_false, h2, h3]
    have h4 : ¬ ((natBytes n ++ rest).length < (natBytes n).length) := by
      simp [List.length_append]
    simp [h4, List.take_left, List.drop_left, bytesToNat_natBytes]

theorem parseIntTLV_derInt (n : Nat) (rest : List Nat) :
    parseIntTLV (derInt n ++ rest) = some (n, rest) := by
  have hshape : derInt n ++ rest
      = 2 :: (lenBytes (intContent n).length ++ (intContent n ++ rest)) := by
    simp [derInt]
  rw [hshape]
  simp only [parseIntTLV, parseLen_lenBytes]
  have h1 : ¬ ((intContent n ++ rest).length < (intContent n).length) := by
    simp [List.length_append]
  simp [h1, List.take_left, List.drop_left, bytesToNat_intContent]

theorem parse_encodeSig (r s : Nat) :
    parseASN1Signature (encodeSig r s) = some (r, s) := by
  have hshape : encodeSig r s
      = 48 :: (lenBytes (derInt r ++ derInt s).length ++ (derInt r ++ derInt s)) := by
    simp [encodeSig]
  rw [hshape]
  simp only [parseASN1Signature, parseLen_lenBytes]
  have h2 : parseIntTLV (derInt r ++ derInt s) = some (r, derInt s) :=
    parseIntTLV_derInt r (derInt s)
  have h3 : parseIntTLV (derInt s) = some (s, []) := by
    have := parseIntTLV_derInt s []
    simpa using this
  simp [h2, h3]

theorem modInverse_spec {a m w : Nat} (h : modInverse a m = some w) :
    a * w % m = 1 ∧ w < m := by
  have h1 := List.find?_some h
  have h2 := List.mem_of_find?_eq_some h
  rw [List.mem_range] at h2
  rw [beq_iff_eq] at h1
  exact ⟨h1, h2⟩

theorem modInverse_exists_of_prime {a m : Nat} (hm : Nat.Prime m)
    (ha1 : 0 < a) (ha2 : a < m) :
    ∃ w, modInverse a m = some w ∧ a * w % m = 1 ∧ w < m := by
  haveI : Fact (Nat.Prime m) := ⟨hm⟩
  have hcast : (a : ZMod m) ≠ 0 := by
    rw [Ne, ZMod.natCast_zmod_eq_zero_iff_dvd]
    intro hdvd
    exact absurd (Nat.le_of_dvd ha1 hdvd) (Nat.not_le_of_lt ha2)
  set u : ZMod m := (a : ZMod m)⁻¹ with hu
  have hmul : (a : ZMod m) * u = 1 := mul_inv_cancel₀ hcast
  have hvalcast : ((u.val : Nat) : ZMod m) = u := by
    rw [ZMod.natCast_val, ZMod.cast_id]
  have hprop : a * u.val % m = 1 := by
    have hcasteq : ((a * u.val : Nat) : ZMod m) = ((1 : Nat) : ZMod m) := by
      push_cast
      rw [hvalcast, hmul]
    have := (ZMod.natCast_eq_natCast_iff' (a * u.val) 1 m).mp hcasteq
    rwa [Nat.mod_eq_of_lt hm.one_lt] at this
  have hmem : u.val ∈ List.range m := List.mem_range.mpr (ZMod.val_lt u)
  have hfind : (modInverse a m).isSome := by
    rw [modInverse, List.find?_isSome]
    exact ⟨u.val, hmem, by rw [beq_iff_eq]; exact hprop⟩
  obtain ⟨w, hw⟩ := Option.isSome_iff_exists.mp hfind
  obtain ⟨hw1, hw2⟩ := modInverse_spec hw
  exact ⟨w, hw, hw1, hw2⟩

theorem modInverse_self (m : Nat) : modInverse m m = none := by
  rw [modInverse, List.find?_eq_none]
  intro x _
  simp [Nat.mul_mod_right]

theorem pow_mod_cycle {g p q : Nat} (hp : 1 < p)
    (hg : g ^ q % p = 1) (a : Nat) : g ^ a % p = g ^ (a % q) % p := by
  conv_lhs => rw [← Nat.div_add_mod a q]
  rw [pow_add, pow_mul, Nat.mul_mod, Nat.pow_mod, hg, one_pow,
    Nat.mod_eq_of_lt hp, one_mul, Nat.mod_mod_of_dvd _ dvd_rfl]

/-- C1 (amended): over valid domain parameters (q prime, g of order
dividing q mod p) and a key pair with y = g^x mod p, whenever
signWithMessageHash succeeds and the computed s is nonzero, verifying the
produced signature with verifyWithMessageHash returns true. -/
theorem c1_amended (key : DSAKey) (k : Nat) (digest : List Nat) (r s : Nat)
    (hp : 1 < key.p) (hq : Nat.Prime key.q)
    (hgord : key.g ^ key.q % key.p = 1)
    (hy : key.y = key.g ^ key.x % key.p)
    (hsign : signRS key k digest = some (r, s)) (hs0 : s ≠ 0) :
    signWithMessageHash key k digest = some (encodeSig r s) ∧
    verifyWithMessageHash key digest (encodeSig r s) = VResult.res true := by
  obtain ⟨p, q, g, y, x, ty⟩ := key
  simp only at hp hq hgord hy ⊢
  have hq0 : 0 < q := hq.pos
  haveI : NeZero q := ⟨by omega⟩
  simp only [signRS] at hsign
  cases hkinv : modInverse k q with
  | none => rw [hkinv] at hsign; simp at hsign
  | some kinv =>
  rw [hkinv] at hsign
  simp only [Option.some.injEq, Prod.mk.injEq] at hsign
  obtain ⟨hr, hs⟩ := hsign
  subst hr
  subst hs
  have hkspec := (modInverse_spec hkinv).1
  have hRlt : g ^ k % p % q < q := Nat.mod_lt _ hq0
  have hSlt : kinv * (zSign q digest + x * (g ^ k % p % q)) % q < q :=
    Nat.mod_lt _ hq0
  have hSpos : 0 < kinv * (zSign q digest + x * (g ^ k % p % q)) % q :=
    Nat.pos_of_ne_zero hs0
  obtain ⟨w, hw, hws, hwlt⟩ := modInverse_exists_of_prime hq hSpos hSlt
  constructor
  · simp only [signWithMessageHash, signRS]
    rw [hkinv]
  · rw [verifyWithMessageHash, parse_encodeSig]
    have hzz : zVerify q digest = zSign q digest := rfl
    simp only [hzz]
    rw [if_neg (by omega), if_neg (by omega), hw]
    simp only [VResult.res.injEq, beq_iff_eq]
    -- abbreviations
    set z := zSign q digest with hzdef
    set R := g ^ k % p % q with hRdef
    set S := kinv * (z + x * R) % q with hSdef
    set u1 := z * w % q with hu1
    set u2 := R * w % q with hu2
    -- collapse the power product to a single power of g
    have hyu2 : y ^ u2 % p = g ^ (x * u2) % p := by
      rw [hy, ← Nat.pow_mod, ← pow_mul]
    have hprod : g ^ u1 % p * (g ^ (x * u2) % p) % p = g ^ (u1 + x * u2) % p := by
      rw [← Nat.mul_mod, ← pow_add]
    -- exponent congruence mod q
    have hcong : (u1 + x * u2) % q = k % q := by
      refine (ZMod.natCast_eq_natCast_iff' _ _ q).mp ?_
      have h1 : (k : ZMod q) * (kinv : ZMod q) = 1 := by
        have h0 : ((k * kinv % q : Nat) : ZMod q) = ((1 : Nat) : ZMod q) := by
          rw [hkspec]
        rw [ZMod.natCast_mod] at h0
        push_cast at h0
        exact h0
      have h2 : ((kinv : ZMod q) * ((z : ZMod q) +
          (x : ZMod q) * ((g ^ k % p : Nat) : ZMod q))) * (w : ZMod q) = 1 := by
        have h0 : ((S * w % q : Nat) : ZMod q) = ((1 : Nat) : ZMod q) := by
          rw [hws]
        rw [ZMod.natCast_mod] at h0
        rw [hSdef, hRdef] at h0
        push_cast [ZMod.natCast_mod] at h0
        exact h0
      rw [hu1, hu2, hRdef]
      push_cast [ZMod.natCast_mod]
      linear_combination (k : ZMod q) * h2 -
        ((w : ZMod q) * ((z : ZMod q) +
          (x : ZMod q) * ((g ^ k % p : Nat) : ZMod q))) * h1
    calc g ^ u1 % p * (y ^ u2 % p) % p % q
        = g ^ u1 % p * (g ^ (x * u2) % p) % p % q := by rw [hyu2]
      _ = g ^ (u1 + x * u2) % p % q := by rw [hprod]
      _ = g ^ ((u1 + x * u2) % q) % p % q := by rw [pow_mod_cycle hp hgord]
      _ = g ^ (k % q) % p % q := by rw [hcong]
      _ = g ^ k % p % q := by rw [← pow_mod_cycle hp hgord]
      _ = R := hRdef.symm

/-- C1 witness: concrete run of the amended correctness theorem with
p = 23, q = 11, g = 4, x = 1, y = 4, k = 3, digest 0x1: the signature is
(r, s) = (7, 10) with s nonzero, and verification returns true. -/
theorem c1_amended_witness :
    (1 < (23 : Nat)) ∧ Nat.Prime 11 ∧ ((4 : Nat) ^ 11 % 23 = 1) ∧
    ((4 : Nat) = 4 ^ 1 % 23) ∧
    signRS ⟨23, 11, 4, 4, 1, "DSA"⟩ 3 [1] = some (7, 10) ∧ ((10 : Nat) ≠ 0) ∧
    (signWithMessageHash ⟨23, 11, 4, 4, 1, "DSA"⟩ 3 [1] = some (encodeSig 7 10) ∧
     verifyWithMessageHash ⟨23, 11, 4, 4, 1, "DSA"⟩ [1] (encodeSig 7 10) =
       VResult.res true) :=
  ⟨by decide, by decide, by decide, by decide, by decide, by decide,
   c1_amended ⟨23, 11, 4, 4, 1, "DSA"⟩ 3 [1] 7 10 (by decide) (by decide)
     (by decide) (by decide) (by decide) (by decide)⟩

/-- C1 counterexample: with the valid domain parameters p = 23 (prime),
q = 11 (prime, dividing 22), g = 4 (of order 11 mod 23), key pair x = 1,
y = 4 = g^1 mod 23, ephemeral k = 2 from the sampled range [2, q-1], and
the one-hex-digit digest 0x6 (q has 4 bits, so exactly bitlength(q) bits),
signWithMessageHash produces the signature (r, s) = (5, 0), and verifying
that very signature does not return true: the verifier fails at the
modular inverse of s = 0.  So sign-then-verify is not always true. -/
theorem c1_counterexample :
    Nat.Prime 23 ∧ Nat.Prime 11 ∧ ((23 - 1) % 11 = 0) ∧
    ((4 : Nat) ^ 11 % 23 = 1) ∧ ((4 : Nat) = 4 ^ 1 % 23) ∧
    (2 ≤ (2 : Nat) ∧ (2 : Nat) ≤ 11 - 1) ∧
    signWithMessageHash ⟨23, 11, 4, 4, 1, "DSA"⟩ 2 [6] =
      some [48, 6, 2, 1, 5, 2, 1, 0] ∧
    verifyWithMessageHash ⟨23, 11, 4, 4, 1, "DSA"⟩ [6] [48, 6, 2, 1, 5, 2, 1, 0]
      ≠ VResult.res true := by decide

/-- C3: the code has no retry loop; at p = 23, q = 11, g = 4, x = 1,
y = 4, k = 2, digest 0x6 the computed s is 0 and signWithMessageHash
nevertheless returns the encoded signature, whose decoded s component is
0 (the claim says the returned signature never contains s = 0). -/
theorem c3_no_retry :
    signRS ⟨23, 11, 4, 4, 1, "DSA"⟩ 2 [6] = some (5, 0) ∧
    signWithMessageHash ⟨23, 11, 4, 4, 1, "DSA"⟩ 2 [6] = some (encodeSig 5 0) ∧
    parseASN1Signature (encodeSig 5 0) = some (5, 0) := by decide

/-- C2 counterexample: with p = 53 (prime), q = 13 (prime, dividing 52),
g = 16 of order 13 mod 53 (16 = 2^4 for the primitive root 2), x = 1,
y = 16, the out-of-range signature (r, s) = (0, 1) passes the range check
and is ACCEPTED for digest 0x6: g^6 mod 53 = 13, so
v = (g^u1 * y^u2 mod p) mod q = 13 mod 13 = 0 = r.  The claim that every
signature with r = 0 is rejected is therefore false. -/
theorem c2_counterexample :
    Nat.Prime 53 ∧ Nat.Prime 13 ∧ ((53 - 1) % 13 = 0) ∧
    ((16 : Nat) ^ 13 % 53 = 1) ∧ ((16 : Nat) = 16 ^ 1 % 53) ∧
    parseASN1Signature [48, 6, 2, 1, 0, 2, 1, 1] = some (0, 1) ∧
    verifyWithMessageHash ⟨53, 13, 16, 16, 1, "DSA"⟩ [6] [48, 6, 2, 1, 0, 2, 1, 1]
      = VResult.res true := by decide

/-- C2 (amended): for a decoded signature (r, s) the range check of
verifyWithMessageHash throws exactly when r > q or s > q, so the boundary
values r = q and s = q (and also r = 0 and s = 0) pass the check; a
signature with r = q is still never accepted (the final comparison fails
because v < q), and one with s = q reaches the modular inverse of q mod
q, which fails. -/
theorem verify_eq_of_parse {key : DSAKey} {digest sig : List Nat} {r s : Nat}
    (hparse : parseASN1Signature sig = some (r, s)) :
    verifyWithMessageHash key digest sig =
      (if key.q < r then VResult.errRange
       else if key.q < s then VResult.errRange
       else (match modInverse s key.q with
         | none => VResult.errArith
         | some w => VResult.res
             ((key.g ^ (zVerify key.q digest * w % key.q) % key.p) *
               (key.y ^ (r * w % key.q) % key.p) % key.p % key.q == r))) := by
  rw [verifyWithMessageHash, hparse]

/-- C2 (amended): for a decoded signature (r, s) the range check of
verifyWithMessageHash throws exactly when r > q or s > q, so the boundary
values r = q and s = q (and also r = 0 and s = 0) pass the check; a
signature with r = q is still never accepted (the final comparison fails
because v < q), and one with s = q reaches the modular inverse of q mod
q, which fails. -/
theorem c2_amended (key : DSAKey) (digest sig : List Nat) (r s : Nat)
    (hq : 1 < key.q) (hparse : parseASN1Signature sig = some (r, s)) :
    (verifyWithMessageHash key digest sig = VResult.errRange ↔
      (key.q < r ∨ (r ≤ key.q ∧ key.q < s))) ∧
    (r = key.q → verifyWithMessageHash key digest sig ≠ VResult.res true) ∧
    (s = key.q → verifyWithMessageHash key digest sig = VResult.errRange ∨
      verifyWithMessageHash key digest sig = VResult.errArith) := by
  rw [verify_eq_of_parse hparse]
  by_cases h1 : key.q < r
  · rw [if_pos h1]
    exact ⟨⟨fun _ => Or.inl h1, fun _ => rfl⟩,
      fun _ h => VResult.noConfusion h, fun _ => Or.inl rfl⟩
  · rw [if_neg h1]
    by_cases h2 : key.q < s
    · rw [if_pos h2]
      exact ⟨⟨fun _ => Or.inr ⟨Nat.le_of_not_lt h1, h2⟩, fun _ => rfl⟩,
        fun _ h => VResult.noConfusion h, fun _ => Or.inl rfl⟩
    · rw [if_neg h2]
      cases hmi : modInverse s key.q with
      | none =>
        refine ⟨⟨fun h => VResult.noConfusion h, fun hor => ?_⟩,
          fun _ h => VResult.noConfusion h, fun _ => Or.inr rfl⟩
        rcases hor with h | ⟨h3, h4⟩
        · exact absurd h h1
        · exact absurd h4 h2
      | some w =>
        refine ⟨⟨fun h => VResult.noConfusion h, fun hor => ?_⟩,
          fun he h => ?_, fun he => ?_⟩
        · rcases hor with h | ⟨h3, h4⟩
          · exact absurd h h1
          · exact absurd h4 h2
        · have hv : key.g ^ (zVerify key.q digest * w % key.q) % key.p *
              (key.y ^ (r * w % key.q) % key.p) % key.p % key.q < key.q :=
            Nat.mod_lt _ (by omega)
          simp only [VResult.res.injEq, beq_iff_eq] at h
          rw [h] at hv
          omega
        · rw [he, modInverse_self] at hmi
          exact absurd hmi (by simp)

/-- C2 witness: the amended range-check characterisation evaluated at
q = 11 with the boundary signature (r, s) = (11, 3). -/
theorem c2_amended_witness :
    (1 < (11 : Nat)) ∧
    parseASN1Signature (encodeSig 11 3) = some (11, 3) ∧
    ((verifyWithMessageHash ⟨23, 11, 4, 4, 1, "DSA"⟩ [1] (encodeSig 11 3) =
        VResult.errRange ↔ ((11 : Nat) < 11 ∨ (11 ≤ (11 : Nat) ∧ (11 : Nat) < 3))) ∧
     ((11 : Nat) = 11 → verifyWithMessageHash ⟨23, 11, 4, 4, 1, "DSA"⟩ [1]
        (encodeSig 11 3) ≠ VResult.res true) ∧
     ((3 : Nat) = 11 → verifyWithMessageHash ⟨23, 11, 4, 4, 1, "DSA"⟩ [1]
        (encodeSig 11 3) = VResult.errRange ∨
        verifyWithMessageHash ⟨23, 11, 4, 4, 1, "DSA"⟩ [1] (encodeSig 11 3) =
        VResult.errArith)) :=
  ⟨by decide, by decide,
   c2_amended ⟨23, 11, 4, 4, 1, "DSA"⟩ [1] (encodeSig 11 3) 11 3 (by decide)
     (by decide)⟩

/-- C9 counterexample: for r = 12 > q = 11 with 0 < s = 3 < q the
verifier does not return false: it throws the invalid DSA signature
range error instead (errRange), so the claim that it returns false for
every r >= q fails at r = q + 1. -/
theorem c9_counterexample :
    Nat.Prime 11 ∧ (11 ≤ (12 : Nat)) ∧ (0 < (3 : Nat)) ∧ ((3 : Nat) < 11) ∧
    parseASN1Signature (encodeSig 12 3) = some (12, 3) ∧
    verifyWithMessageHash ⟨23, 11, 4, 4, 1, "DSA"⟩ [1] (encodeSig 12 3) =
      VResult.errRange ∧
    verifyWithMessageHash ⟨23, 11, 4, 4, 1, "DSA"⟩ [1] (encodeSig 12 3) ≠
      VResult.res false := by decide

/-- C9 (amended): for every decodable signature with r >= q and
0 < s < q (q prime), verifyWithMessageHash never returns true; for
r = q it returns false (the range check passes and the final comparison
fails since v < q), while for r > q it throws the range error instead of
returning false. -/
theorem c9_amended (key : DSAKey) (digest sig : List Nat) (r s : Nat)
    (hq : Nat.Prime key.q) (hparse : parseASN1Signature sig = some (r, s))
    (hr : key.q ≤ r) (hs1 : 0 < s) (hs2 : s < key.q) :
    verifyWithMessageHash key digest sig ≠ VResult.res true ∧
    (r = key.q → verifyWithMessageHash key digest sig = VResult.res false) ∧
    (key.q < r → verifyWithMessageHash key digest sig = VResult.errRange) := by
  rw [verify_eq_of_parse hparse]
  rcases Nat.lt_or_ge key.q r with h1 | h1
  · rw [if_pos h1]
    exact ⟨fun h => VResult.noConfusion h, fun he => absurd he (by omega),
      fun _ => rfl⟩
  · have hrq : r = key.q := by omega
    subst hrq
    rw [if_neg (by omega), if_neg (by omega)]
    cases hmi : modInverse s key.q with
    | none =>
      obtain ⟨w, hw, _, _⟩ := modInverse_exists_of_prime hq hs1 hs2
      rw [hmi] at hw
      exact absurd hw (by simp)
    | some w =>
      dsimp only
      have hv : key.g ^ (zVerify key.q digest * w % key.q) % key.p *
          (key.y ^ (key.q * w % key.q) % key.p) % key.p % key.q < key.q :=
        Nat.mod_lt _ hq.pos
      have hbeq : (key.g ^ (zVerify key.q digest * w % key.q) % key.p *
          (key.y ^ (key.q * w % key.q) % key.p) % key.p % key.q == key.q) = false := by
        rw [beq_eq_false_iff_ne]
        exact Nat.ne_of_lt hv
      rw [hbeq]
      exact ⟨fun h => Bool.noConfusion (VResult.res.inj h), fun _ => rfl,
        fun hlt => absurd hlt (by omega)⟩

/-- C9 witness: the amended theorem evaluated at the boundary signature
(r, s) = (11, 3) for q = 11. -/
theorem c9_amended_witness :
    Nat.Prime 11 ∧
    parseASN1Signature (encodeSig 11 3) = some (11, 3) ∧ (11 ≤ (11 : Nat)) ∧
    (0 < (3 : Nat)) ∧ ((3 : Nat) < 11) ∧
    (verifyWithMessageHash ⟨23, 11, 4, 4, 1, "DSA"⟩ [2] (encodeSig 11 3) ≠
       VResult.res true ∧
     ((11 : Nat) = 11 → verifyWithMessageHash ⟨23, 11, 4, 4, 1, "DSA"⟩ [2]
        (encodeSig 11 3) = VResult.res false) ∧
     ((11 : Nat) < 11 → verifyWithMessageHash ⟨23, 11, 4, 4, 1, "DSA"⟩ [2]
        (encodeSig 11 3) = VResult.errRange)) :=
  ⟨by decide, by decide, by decide, by decide, by decide,
   c9_amended ⟨23, 11, 4, 4, 1, "DSA"⟩ [2] (encodeSig 11 3) 11 3 (by decide)
     (by decide) (by decide) (by decide) (by decide)⟩

/-- Declarative shape of a DER length field: enc is a byte sequence that
the spec-modelled decoder reads as the length n (short form below 128,
or long form with at least one length byte). -/
def LenEncoding (enc : List Nat) (n : Nat) : Prop :=
  (n < 128 ∧ enc = [n]) ∨
  (∃ ds : List Nat, 1 ≤ ds.length ∧ enc = (128 + ds.length) :: ds ∧
    n = bytesToNat ds)

/-- Declarative shape of one INTEGER TLV: tag 0x02, a length field, and
exactly as many content bytes as the length field declares. -/
def IntTLVShape (t : List Nat) : Prop :=
  ∃ enc content : List Nat,
    LenEncoding enc content.length ∧ t = 2 :: enc ++ content

/-- Declarative shape of a well-formed two-integer SEQUENCE container:
tag 0x30, a length field covering exactly the body, and a body that is
exactly two INTEGER TLVs (so no truncation, no wrong tag, no wrong
element count, no trailing bytes). -/
def IsTwoIntSequence (bs : List Nat) : Prop :=
  ∃ enc t1 t2 : List Nat,
    LenEncoding enc (t1 ++ t2).length ∧ IntTLVShape t1 ∧ IntTLVShape t2 ∧
    bs = 48 :: enc ++ (t1 ++ t2)

theorem parseLen_sound {bs : List Nat} {n : Nat} {rest : List Nat}
    (h : parseLen bs = some (n, rest)) :
    ∃ enc, LenEncoding enc n ∧ bs = enc ++ rest := by
  cases bs with
  | nil => exact absurd h (by simp [parseLen])
  | cons b tail =>
    rw [parseLen] at h
    by_cases h1 : b < 128
    · rw [if_pos h1] at h
      simp only [Option.some.injEq, Prod.mk.injEq] at h
      obtain ⟨hn, hrest⟩ := h
      subst hn
      subst hrest
      exact ⟨[b], Or.inl ⟨h1, rfl⟩, rfl⟩
    · rw [if_neg h1] at h
      by_cases h2 : b = 128
      · rw [if_pos h2] at h
        exact absurd h (by simp)
      · rw [if_neg h2] at h
        by_cases h3 : tail.length < b - 128
        · rw [if_pos h3] at h
          exact absurd h (by simp)
        · rw [if_neg h3] at h
          simp only [Option.some.injEq, Prod.mk.injEq] at h
          obtain ⟨hn, hrest⟩ := h
          have hlt : (tail.take (b - 128)).length = b - 128 := by
            rw [List.length_take]
            omega
          refine ⟨b :: tail.take (b - 128),
            Or.inr ⟨tail.take (b - 128), by omega, ?_, hn.symm⟩, ?_⟩
          · have hb2 : 128 + (b - 128) = b := by omega
            rw [hlt, hb2]
          · rw [← hrest, List.cons_append, List.take_append_drop]

theorem parseLen_complete {enc : List Nat} {n : Nat} (h : LenEncoding enc n)
    (rest : List Nat) : parseLen (enc ++ rest) = some (n, rest) := by
  rcases h with ⟨hlt, henc⟩ | ⟨ds, hds, henc, hn⟩
  · subst henc
    simp [parseLen, hlt]
  · subst henc
    rw [List.cons_append, parseLen]
    rw [if_neg (by omega), if_neg (by omega)]
    have hk : 128 + ds.length - 128 = ds.length := by omega
    rw [hk, if_neg (by simp [List.length_append])]
    rw [List.take_left, List.drop_left, hn]

theorem parseIntTLV_sound {bs : List Nat} {v : Nat} {rest : List Nat}
    (h : parseIntTLV bs = some (v, rest)) :
    ∃ t, IntTLVShape t ∧ bs = t ++ rest := by
  cases bs with
  | nil => rw [parseIntTLV] at h; exact absurd h (by simp)
  | cons b tail =>
    rw [parseIntTLV] at h
    by_cases hb : b = 2
    · rw [if_pos hb] at h
      subst hb
      cases hpl : parseLen tail with
      | none => rw [hpl] at h; exact absurd h (by simp)
      | some lenbody =>
        obtain ⟨len, body⟩ := lenbody
        rw [hpl] at h
        dsimp only at h
        by_cases hle : len ≤ body.length
        · rw [if_pos hle] at h
          simp only [Option.some.injEq, Prod.mk.injEq] at h
          obtain ⟨hv, hrest⟩ := h
          obtain ⟨enc, hencL, hbs⟩ := parseLen_sound hpl
          have hclen : (body.take len).length = len := by
            rw [List.length_take]
            omega
          refine ⟨2 :: enc ++ body.take len, ⟨enc, body.take len, ?_, rfl⟩, ?_⟩
          · rw [hclen]
            exact hencL
          · rw [hbs, ← hrest]
            simp [List.append_assoc]
        · rw [if_neg hle] at h
          exact absurd h (by simp)
    · rw [if_neg hb] at h
      exact absurd h (by simp)

theorem parseIntTLV_complete {t : List Nat} (h : IntTLVShape t)
    (rest : List Nat) : ∃ v, parseIntTLV (t ++ rest) = some (v, rest) := by
  obtain ⟨enc, content, hlen, ht⟩ := h
  subst ht
  have hshape : (2 :: enc ++ content) ++ rest = 2 :: (enc ++ (content ++ rest)) := by
    simp
  rw [hshape, parseIntTLV, if_pos rfl, parseLen_complete hlen]
  dsimp only
  rw [if_pos (by simp [List.length_append])]
  exact ⟨bytesToNat ((content ++ rest).take content.length),
    by rw [List.drop_left]⟩

theorem parseASN1Signature_sound {bs : List Nat} {rs : Nat × Nat}
    (h : parseASN1Signature bs = some rs) : IsTwoIntSequence bs := by
  cases bs with
  | nil => rw [parseASN1Signature] at h; exact absurd h (by simp)
  | cons b tail =>
    rw [parseASN1Signature] at h
    by_cases hb : b = 48
    · rw [if_pos hb] at h
      subst hb
      cases hpl : parseLen tail with
      | none => rw [hpl] at h; exact absurd h (by simp)
      | some lenbody =>
        obtain ⟨len, body⟩ := lenbody
        rw [hpl] at h
        dsimp only at h
        by_cases hbl : body.length = len
        · rw [if_pos hbl] at h
          cases h1 : parseIntTLV body with
          | none => rw [h1] at h; exact absurd h (by simp)
          | some vrest1 =>
            obtain ⟨v1, body2⟩ := vrest1
            rw [h1] at h
            dsimp only at h
            cases h2 : parseIntTLV body2 with
            | none => rw [h2] at h; exact absurd h (by simp)
            | some vrest2 =>
              obtain ⟨v2, body3⟩ := vrest2
              rw [h2] at h
              dsimp only at h
              by_cases h3 : body3 = []
              · subst h3
                obtain ⟨t1, ht1s, hbody⟩ := parseIntTLV_sound h1
                obtain ⟨t2, ht2s, hbody2⟩ := parseIntTLV_sound h2
                rw [List.append_nil] at hbody2
                subst hbody2
                obtain ⟨enc, hencL, htail⟩ := parseLen_sound hpl
                refine ⟨enc, t1, body2, ?_, ht1s, ht2s, ?_⟩
                · rw [← hbody, hbl]
                  exact hencL
                · rw [htail, hbody]
                  simp
              · rw [if_neg h3] at h
                exact absurd h (by simp)
        · rw [if_neg hbl] at h
          exact absurd h (by simp)
    · rw [if_neg hb] at h
      exact absurd h (by simp)

theorem twoIntSeq_parses {bs : List Nat} (h : IsTwoIntSequence bs) :
    (parseASN1Signature bs).isSome := by
  obtain ⟨enc, t1, t2, hlen, ht1, ht2, hbs⟩ := h
  subst hbs
  rw [List.cons_append, parseASN1Signature]
  rw [if_pos rfl, parseLen_complete hlen]
  dsimp only
  rw [if_pos rfl]
  obtain ⟨v1, hv1⟩ := parseIntTLV_complete ht1 t2
  rw [hv1]
  dsimp only
  obtain ⟨v2, hv2⟩ := parseIntTLV_complete ht2 []
  rw [List.append_nil] at hv2
  rw [hv2]
  dsimp only
  rw [if_pos rfl]
  simp

/-- C4: every byte stream that is not a well-formed two-integer SEQUENCE
container (truncated, wrong tag, wrong element count, or with trailing
bytes) is rejected by parseASN1Signature with the MalformedSignature
failure, and verifyWithMessageHash consequently reports it; no such
input is silently parsed into a pair. -/
theorem c4_malformed_rejected (bs : List Nat) (h : ¬ IsTwoIntSequence bs) :
    parseASN1Signature bs = none ∧
    ∀ (key : DSAKey) (digest : List Nat),
      verifyWithMessageHash key digest bs = VResult.errMalformed := by
  cases hp : parseASN1Signature bs with
  | none =>
    refine ⟨rfl, fun key digest => ?_⟩
    rw [verifyWithMessageHash, hp]
  | some rs => exact absurd (parseASN1Signature_sound hp) h

/-- C4 witness: the truncated container 30 03 02 01 05 (a SEQUENCE whose
body holds only one INTEGER) is not a two-integer sequence and is
rejected. -/
theorem c4_malformed_rejected_witness :
    ¬ IsTwoIntSequence [48, 3, 2, 1, 5] ∧
    (parseASN1Signature [48, 3, 2, 1, 5] = none ∧
     ∀ (key : DSAKey) (digest : List Nat),
       verifyWithMessageHash key digest [48, 3, 2, 1, 5] =
         VResult.errMalformed) := by
  have hnone : parseASN1Signature [48, 3, 2, 1, 5] = none := by decide
  have hnot : ¬ IsTwoIntSequence [48, 3, 2, 1, 5] := by
    intro hshape
    have := twoIntSeq_parses hshape
    rw [hnone] at this
    exact Bool.noConfusion this
  exact ⟨hnot, c4_malformed_rejected _ hnot⟩

/-- C5: for all r, s strictly between 0 and q, decoding the container
produced by the signature encoder gives back exactly (r, s). -/
theorem c5_round_trip (q r s : Nat) (_hr1 : 0 < r) (_hr2 : r < q)
    (_hs1 : 0 < s) (_hs2 : s < q) :
    parseASN1Signature (encodeSig r s) = some (r, s) :=
  parse_encodeSig r s

/-- C5 witness: the round trip evaluated at q = 11, r = 5, s = 7. -/
theorem c5_round_trip_witness :
    (0 < (5 : Nat)) ∧ ((5 : Nat) < 11) ∧ (0 < (7 : Nat)) ∧ ((7 : Nat) < 11) ∧
    parseASN1Signature (encodeSig 5 7) = some (5, 7) :=
  ⟨by decide, by decide, by decide, by decide,
   c5_round_trip 11 5 7 (by decide) (by decide) (by decide) (by decide)⟩

/-- Modelled from the spec: signWithMessageHash drawing its ephemeral
secret from the external secure RNG
KJUR.crypto.Util.getRandomBigIntegerMinToMax, represented as an abstract
function from the inclusive bounds to a value; the single call of line
116-117 passes min = ONE.add(ONE) = 2 and max = q.subtract(ONE) = q - 1. -/
def signWithMessageHashRand (rand : Nat → Nat → Nat) (key : DSAKey)
    (digest : List Nat) : Option (List Nat) :=
  signWithMessageHash key (rand (1 + 1) (key.q - 1)) digest

/-- C6: for any random source respecting its inclusive bounds, the
ephemeral secret used by signWithMessageHash comes from one call with
range [2, q-1], hence satisfies 2 <= k <= q-1 and is never 1. -/
theorem c6_ephemeral_range (rand : Nat → Nat → Nat) (key : DSAKey)
    (digest : List Nat)
    (hrand : ∀ lo hi, lo ≤ hi → lo ≤ rand lo hi ∧ rand lo hi ≤ hi)
    (hq : 3 ≤ key.q) :
    ∃ k, signWithMessageHashRand rand key digest =
        signWithMessageHash key k digest ∧
      2 ≤ k ∧ k ≤ key.q - 1 ∧ k ≠ 1 := by
  have hb := hrand (1 + 1) (key.q - 1) (by omega)
  exact ⟨rand (1 + 1) (key.q - 1), rfl, by omega, hb.2, by omega⟩

/-- C6 witness: the bounds property instantiated with the random source
that always returns its lower bound, q = 11. -/
theorem c6_ephemeral_range_witness :
    (∀ lo hi : Nat, lo ≤ hi → lo ≤ lo ∧ lo ≤ hi) ∧ (3 ≤ (11 : Nat)) ∧
    ∃ k, signWithMessageHashRand (fun lo _ => lo) ⟨23, 11, 4, 4, 1, "DSA"⟩ [1] =
        signWithMessageHash ⟨23, 11, 4, 4, 1, "DSA"⟩ k [1] ∧
      2 ≤ k ∧ k ≤ 11 - 1 ∧ k ≠ 1 :=
  ⟨fun lo _ h => ⟨Nat.le_refl lo, h⟩, by decide,
   c6_ephemeral_range (fun lo _ => lo) ⟨23, 11, 4, 4, 1, "DSA"⟩ [1]
     (fun lo _ h => ⟨Nat.le_refl lo, h⟩) (by decide)⟩

/-- C7: the z derived by the signer (line 121-122) and the z derived by
the verifier (line 160-161) are the same function of q and the digest. -/
theorem c7_z_derivation_agree (q : Nat) (digest : List Nat) :
    zSign q digest = zVerify q digest := rfl

/-- signWithMessageHash as a state transformer on the key object: the
method body only reads this.p, this.q, this.g, this.y (unused) and
this.x into locals (lines 108-112) and performs no assignment, so the
post state is the receiver unchanged. -/
def signWithMessageHashST (self : DSAKey) (k : Nat) (digest : List Nat) :
    Option (List Nat) × DSAKey :=
  let p := self.p
  let q := self.q
  let g := self.g
  let _y := self.y
  let x := self.x
  let z := zSign q digest
  let r := g ^ k % p % q
  (match modInverse k q with
   | none => none
   | some kinv => some (encodeSig r (kinv * (z + x * r) % q)), self)

/-- verifyWithMessageHash as a state transformer on the key object: the
method body only reads this.p, this.q, this.g, this.y into locals
(lines 148-151) and performs no assignment, so the post state is the
receiver unchanged. -/
def verifyWithMessageHashST (self : DSAKey) (digest sig : List Nat) :
    VResult × DSAKey :=
  let p := self.p
  let q := self.q
  let g := self.g
  let y := self.y
  (match parseASN1Signature sig with
   | none => .errMalformed
   | some (r, s) =>
     let z := zVerify q digest
     if q < r then .errRange
     else if q < s then .errRange
     else
       match modInverse s q with
       | none => .errArith
       | some w =>
         .res ((g ^ (z * w % q) % p) * (y ^ (r * w % q) % p) % p % q == r),
   self)

/-- C8: both operations leave the key object exactly as it was (all of
p, q, g, y, x and type), and their results agree with the pure
functions; the only effect a caller can observe is the signer consuming
its random source (modelled by the explicit k argument). -/
theorem c8_no_mutation (self : DSAKey) (k : Nat) (digest sig : List Nat) :
    (signWithMessageHashST self k digest).1 = signWithMessageHash self k digest ∧
    (signWithMessageHashST self k digest).2 = self ∧
    (signWithMessageHashST self k digest).2.p = self.p ∧
    (signWithMessageHashST self k digest).2.q = self.q ∧
    (signWithMessageHashST self k digest).2.g = self.g ∧
    (signWithMessageHashST self k digest).2.y = self.y ∧
    (signWithMessageHashST self k digest).2.x = self.x ∧
    (signWithMessageHashST self k digest).2.type = self.type ∧
    (verifyWithMessageHashST self digest sig).1 =
      verifyWithMessageHash self digest sig ∧
    (verifyWithMessageHashST self digest sig).2 = self := by
  have hsign : (signWithMessageHashST self k digest).1 =
      signWithMessageHash self k digest := by
    rw [signWithMessageHashST, signWithMessageHash, signRS]
    cases modInverse k self.q <;> rfl
  exact ⟨hsign, rfl, rfl, rfl, rfl, rfl, rfl, rfl, rfl, rfl⟩

theorem hexToNat_foldl_lt (l : List Nat) (hd : ∀ c ∈ l, c < 16) :
    ∀ a : Nat, l.foldl (fun acc d => 16 * acc + d) a < (a + 1) * 16 ^ l.length := by
  induction l with
  | nil => intro a; simp [Nat.lt_succ_self a]
  | cons c cs ih =>
    intro a
    have hc : c < 16 := hd c (List.mem_cons_self c cs)
    have hcs : ∀ d ∈ cs, d < 16 := fun d hdm => hd d (List.mem_cons_of_mem c hdm)
    have h1 := ih hcs (16 * a + c)
    have h2 : (16 * a + c + 1) * 16 ^ cs.length ≤ (a + 1) * 16 ^ (cs.length + 1) := by
      have : 16 * a + c + 1 ≤ (a + 1) * 16 := by omega
      calc (16 * a + c + 1) * 16 ^ cs.length
          ≤ (a + 1) * 16 * 16 ^ cs.length := Nat.mul_le_mul_right _ this
        _ = (a + 1) * 16 ^ (cs.length + 1) := by ring
    calc (c :: cs).foldl (fun acc d => 16 * acc + d) a
        = cs.foldl (fun acc d => 16 * acc + d) (16 * a + c) := rfl
      _ < (16 * a + c + 1) * 16 ^ cs.length := h1
      _ ≤ (a + 1) * 16 ^ (cs.length + 1) := h2
      _ = (a + 1) * 16 ^ (c :: cs).length := by rw [List.length_cons]

theorem hexToNat_lt (l : List Nat) (hd : ∀ c ∈ l, c < 16) :
    hexToNat l < 16 ^ l.length := by
  have := hexToNat_foldl_lt l hd 0
  simpa [hexToNat] using this

/-- C10: when the bit length N of q is not a multiple of 4, both the
signer and the verifier form z from only the leftmost floor(N/4) hex
digits of the digest: z depends only on that prefix, and since
4 * floor(N/4) < N the value fits in strictly fewer than N bits. -/
theorem c10_truncated_digest (q : Nat) (h4 : ¬ (4 ∣ bitLength q))
    (d1 d2 : List Nat)
    (hpre : d1.take (bitLength q / 4) = d2.take (bitLength q / 4))
    (hdig : ∀ c ∈ d1, c < 16) :
    zSign q d1 = zSign q d2 ∧ zVerify q d1 = zVerify q d2 ∧
    4 * (bitLength q / 4) < bitLength q ∧
    zSign q d1 < 2 ^ (4 * (bitLength q / 4)) := by
  have hz : zSign q d1 = zSign q d2 := by
    rw [zSign, zSign, hpre]
  have hmod : bitLength q % 4 ≠ 0 := fun hc => h4 (Nat.dvd_of_mod_eq_zero hc)
  have hdm := Nat.div_add_mod (bitLength q) 4
  refine ⟨hz, hz, by omega, ?_⟩
  have hlen : (d1.take (bitLength q / 4)).length ≤ bitLength q / 4 := by
    rw [List.length_take]
    omega
  have hdig2 : ∀ c ∈ d1.take (bitLength q / 4), c < 16 :=
    fun c hc => hdig c (List.mem_of_mem_take hc)
  calc zSign q d1 < 16 ^ (d1.take (bitLength q / 4)).length :=
        hexToNat_lt _ hdig2
    _ ≤ 16 ^ (bitLength q / 4) :=
        Nat.pow_le_pow_right (by norm_num) hlen
    _ = 2 ^ (4 * (bitLength q / 4)) := by
        rw [Nat.pow_mul]

/-- C10 witness: q = 23 has bit length 5 (not a multiple of 4), so only
one hex digit of the digest is used; digests 0x37 and 0x39 share that
digit and give the same z, which is below 2^4. -/
theorem c10_truncated_digest_witness :
    ¬ (4 ∣ bitLength 23) ∧
    [3, 7].take (bitLength 23 / 4) = [3, 9].take (bitLength 23 / 4) ∧
    (∀ c ∈ [3, 7], c < 16) ∧
    (zSign 23 [3, 7] = zSign 23 [3, 9] ∧ zVerify 23 [3, 7] = zVerify 23 [3, 9] ∧
     4 * (bitLength 23 / 4) < bitLength 23 ∧
     zSign 23 [3, 7] < 2 ^ (4 * (bitLength 23 / 4))) :=
  ⟨by decide, by decide, by decide,
   c10_truncated_digest 23 (by decide) [3, 7] [3, 9] (by decide) (by decide)⟩

